import Mathlib

/-!
Verification of the cat-angular configuration-merge service
(`src/main/javascript/service/cat-select-config-service.js`) and the detail
controller (`src/main/javascript/controller/cat-base-detail-controller.js`).

JavaScript values are embedded as finite trees: objects and arrays are ordered
association lists of string keys (arrays carry their index keys, matching how
lodash `_.assign` enumerates an array source), and the spec data model for
configurations is a tree of nested mappings.  In-place mutation performed by
`_.assign` on shared substructure is translated into explicit state passing:
each operation returns both its result value and the updated store.
-/

set_option autoImplicit false

namespace CatAngular

mutual

/-- A JavaScript value as used by the config service: `undefined`, booleans,
numbers, strings, and objects.  Arrays are objects whose `isArr` flag is set
and whose fields are the index keys, mirroring the fact that lodash
`_.isObject` is true for arrays and `_.assign` iterates an array source by its
own enumerable (index) keys. -/
inductive JsVal where
  | undef : JsVal
  | bool (b : Bool) : JsVal
  | num (n : Int) : JsVal
  | str (s : String) : JsVal
  | obj (isArr : Bool) (fields : Fields) : JsVal

/-- Ordered field list of a JavaScript object (insertion order, as JS engines
enumerate string keys). -/
inductive Fields where
  | nil : Fields
  | cons (key : String) (value : JsVal) (rest : Fields) : Fields

end

deriving instance DecidableEq for JsVal, Fields

/-- `_.isObject` of lodash: true exactly for objects and arrays (functions are
not modelled; none of the claims involve function values). -/
def JsVal.isObject : JsVal → Bool
  | .obj _ _ => true
  | _ => false

/-- JavaScript truthiness, used by the `_.clone(config) || {}` expression. -/
def JsVal.truthy : JsVal → Bool
  | .undef => false
  | .bool b => b
  | .num n => n != 0
  | .str s => s != ""
  | .obj _ _ => true

/-- JavaScript `a || b`. -/
def jsOr (a b : JsVal) : JsVal := if a.truthy then a else b

/-- The empty object literal. -/
def emptyObj : JsVal := .obj false .nil

/-- Key list of a field list. -/
def Fields.keys : Fields → List String
  | .nil => []
  | .cons k _ rest => k :: rest.keys

/-- Whether a key occurs in a field list. -/
def Fields.hasKey : Fields → String → Bool
  | .nil, _ => false
  | .cons k _ rest, key => k = key || rest.hasKey key

/-- First binding of a key (JS property read). -/
def Fields.getKey : Fields → String → Option JsVal
  | .nil, _ => none
  | .cons k v rest, key => if k = key then some v else rest.getKey key

/-- JS property write: update the binding of `key` if present, otherwise
append a new binding at the end (JS objects append new keys in insertion
order). -/
def Fields.setKey : Fields → String → JsVal → Fields
  | .nil, key, v => .cons key v .nil
  | .cons k w rest, key, v =>
      if k = key then .cons k v rest else .cons k w (rest.setKey key v)

/-- Property read on a value: `undefined`-producing reads on non-objects are
reported as `none` (the merge callback only distinguishes object-valued
properties, so prototype properties of primitives are irrelevant). -/
def JsVal.getProp : JsVal → String → Option JsVal
  | .obj _ fs, key => fs.getKey key
  | _, _ => none

/-- Property write on a value: writing a property of a primitive is a silent
no-op (lodash iterates and assigns outside strict mode). -/
def JsVal.setProp : JsVal → String → JsVal → JsVal
  | .obj a fs, key, v => .obj a (fs.setKey key v)
  | t, _, _ => t

mutual

/-- `assignDeep(target, source)` of cat-select-config-service.js:
`_.assign(target, source, customizer)` where the customizer merges
recursively when both the target property and the source property are
objects (in the lodash sense, so arrays included) and otherwise returns the
source property.  `_.assign` with a non-object source copies nothing
(lodash `keys` of a primitive is empty). -/
def assignDeep : JsVal → JsVal → JsVal
  | t, .obj _ fs => assignFields t fs
  | t, _ => t

/-- One `_.assign` pass over the source's own enumerable keys, left to right,
writing the customizer's value for each key into the target. -/
def assignFields : JsVal → Fields → JsVal
  | t, .nil => t
  | t, .cons k sv rest =>
      assignFields
        (t.setProp k
          (match t.getProp k with
           | some tv => if tv.isObject && sv.isObject then assignDeep tv sv else sv
           | none => sv))
        rest

end

/-- The customizer passed to `_.assign` by `assignDeep`: receives the target
property (`none` for an absent key, i.e. JS `undefined`) and the source
property. -/
def customize : Option JsVal → JsVal → JsVal
  | some tv, sv => if tv.isObject && sv.isObject then assignDeep tv sv else sv
  | none, sv => sv

/-- `_.clone`: a shallow copy.  At the level of values a shallow copy is the
identity; the sharing of the copied object's field values with the original
is what `storedAfter` below accounts for. -/
def clone (v : JsVal) : JsVal := v

/-- The provider-level registry `configs`: an insertion-ordered map from
names to registered config values. -/
abbrev Registry := List (String × JsVal)

/-- JS property read on the registry object. -/
def lookupReg : Registry → String → Option JsVal
  | [], _ => none
  | (n, v) :: rest, name => if n = name then some v else lookupReg rest name

/-- JS property write on the registry object. -/
def setReg : Registry → String → JsVal → Registry
  | [], name, v => [(name, v)]
  | (n, w) :: rest, name, v =>
      if n = name then (n, v) :: rest else (n, w) :: setReg rest name v

/-- `CatSelectConfigServiceProvider.config(name, config)`: stores `config`
under `name` unless `config` is `undefined`, then returns `configs[name]`.
Returned pair: (registry after the call, returned value). -/
def providerConfig (regs : Registry) (name : String) (cfg : JsVal) :
    Registry × JsVal :=
  let regs' := if cfg = JsVal.undef then regs else setReg regs name cfg
  (regs', (lookupReg regs' name).getD .undef)

/-- `CatSelectConfigService.getConfig(name, options)` (the spec's `resolve`):
returns `undefined` when both `configs[name]` and `options` are `undefined`,
otherwise `assignDeep(_.clone(config) || {}, options)`. -/
def getConfig (regs : Registry) (name : String) (options : JsVal) : JsVal :=
  let config := (lookupReg regs name).getD .undef
  if config = JsVal.undef && options = JsVal.undef then .undef
  else assignDeep (jsOr (clone config) emptyObj) options

/-- Value of the registered config object after one `getConfig` call, field
by field.  `_.assign` writes only into its target.  The top-level target is
the fresh shallow clone, so the stored object's own bindings are never
reassigned; but the clone's field values are the stored object's field
values, so whenever the customizer recurses (both the stored field and the
incoming field are objects) the recursive `assignDeep` runs with the stored
nested object as its target and mutates it in place, leaving its value equal
to the merge result.  At every other key the write lands only in the clone. -/
def storedFields : Fields → JsVal → Fields
  | .nil, _ => .nil
  | .cons k tv rest, o =>
      .cons k
        (match o.getProp k with
         | some sv => if tv.isObject && sv.isObject then assignDeep tv sv else tv
         | none => tv)
        (storedFields rest o)

/-- The stored config value after a `getConfig` call with the given options
(see `storedFields`); a non-object stored value is never touched. -/
def storedAfter : JsVal → JsVal → JsVal
  | .obj b fs, o => .obj b (storedFields fs o)
  | v, _ => v

/-- Registry after a `getConfig` call: the object registered under `name`
(first binding, as in a JS object there is exactly one) is mutated as
described by `storedAfter`; every other binding is untouched. -/
def mutateReg : Registry → String → JsVal → Registry
  | [], _, _ => []
  | (n, v) :: rest, name, o =>
      if n = name then (n, storedAfter v o) :: rest
      else (n, v) :: mutateReg rest name o

/-- A `getConfig` call with its side effect on the registry made explicit:
returns the merged result together with the registry state after the call. -/
def getConfigCall (regs : Registry) (name : String) (options : JsVal) :
    JsVal × Registry :=
  (getConfig regs name options, mutateReg regs name options)

mutual

/-- Well-formedness of an embedded JS value: every object level has distinct
keys, as the keys of a real JS object necessarily are. -/
def JsVal.wf : JsVal → Bool
  | .obj _ fs => fs.wfF
  | _ => true

/-- Well-formedness of a field list: keys distinct at this level, all values
well-formed. -/
def Fields.wfF : Fields → Bool
  | .nil => true
  | .cons k v rest => !rest.hasKey k && v.wf && rest.wfF

end

/-- Well-formedness of a registry: every registered value is well-formed. -/
def wfReg : Registry → Bool
  | [] => true
  | (_, v) :: rest => v.wf && wfReg rest

section Breadcrumbs

/-- An endpoint descriptor as the breadcrumb code uses it: its name
(`getEndpointName()`) and its finite chain of `parentEndpoint` links. -/
inductive Endpoint where
  | root (name : String) : Endpoint
  | child (name : String) (parent : Endpoint) : Endpoint
deriving DecidableEq

/-- `getEndpointName()`. -/
def Endpoint.getEndpointName : Endpoint → String
  | .root n => n
  | .child n _ => n

/-- Number of levels in the parent chain. -/
def Endpoint.chainLevels : Endpoint → Nat
  | .root _ => 0
  | .child _ p => p.chainLevels + 1

/-- A parent object from the `parents` resolve, exposing its display name. -/
structure ParentObj where
  name : String
deriving DecidableEq

/-- A breadcrumb (or ui-stack) entry: a title and, except on the terminal
entry for the current item, a url. -/
structure Crumb where
  title : String
  url : Option String
deriving DecidableEq

deriving instance DecidableEq for Except

/-- `capitalize` of the controller:
`string.charAt(0).toUpperCase() + string.substring(1)`. -/
def capitalize (s : String) : String :=
  match s.toList with
  | [] => ""
  | c :: rest => String.mk (c.toUpper :: rest)

/-- JS `path.split('/')` on the character list of the path: splitting an
empty string yields one empty component, and each separator starts a new
component. -/
def splitSlash : List Char → List (List Char)
  | [] => [[]]
  | c :: rest =>
      let r := splitSlash rest
      if c = '/' then [] :: r
      else
        match r with
        | [] => [[c]]
        | h :: t => (c :: h) :: t

/-- `join('/')` on split components. -/
def joinSlash : List (List Char) → List Char
  | [] => []
  | [h] => h
  | h :: t => h ++ '/' :: joinSlash t

/-- `splitShiftAndJoin(path, 1)` of the controller:
`_.initial(path.split('/'), 1).join('/')`, i.e. split on `/`, drop the last
component, join back. -/
def splitShiftAndJoin (path : String) : String :=
  String.mk (joinSlash (splitSlash path.toList).dropLast)

/-- The `while (!_.isUndefined(parentEndpoint))` loop of
`CatBaseDetailController`, walking the parent chain of `current`.  Each
iteration reads `parents[count]` (a read past the end of `parents` makes the
controller throw, modelled as `Except.error`), strips one path segment to
reach the parent's detail url, emits the parent's detail entry onto both the
ui stack and the breadcrumbs, strips one more segment to reach the parent
collection's url, and emits the collection entry onto the breadcrumbs.
Entries are unshifted, so entries of later iterations (closer to the root)
end up in front; the returned pair is (breadcrumbs, ui stack), root first. -/
def crumbLoop : Endpoint → List ParentObj → Nat → String →
    Except String (List Crumb × List Crumb)
  | .root _, _, _, _ => .ok ([], [])
  | .child cname parentEp, parents, count, parentUrl =>
      match parents.get? count with
      | none => .error "TypeError: cannot read property name of undefined"
      | some parent =>
          let u1 := splitShiftAndJoin parentUrl
          let detailBc : Crumb :=
            ⟨parent.name, some ("#" ++ u1 ++ "?tab=" ++ cname ++ "s")⟩
          let u2 := splitShiftAndJoin u1
          let collBc : Crumb :=
            ⟨capitalize parentEp.getEndpointName ++ "s", some ("#" ++ u2)⟩
          match crumbLoop parentEp parents (count + 1) u2 with
          | .error e => .error e
          | .ok (bcRest, uiRest) =>
              .ok (bcRest ++ [collBc, detailBc], uiRest ++ [detailBc])

/-- Breadcrumb and ui-stack construction of `CatBaseDetailController`:
if the endpoint has a parent endpoint, run the chain walk starting from
`baseUrl`, otherwise emit the single collection entry for the endpoint
itself; then append the terminal entry whose title is `"New"` when
`$routeParams.id === 'new'` and `""` otherwise, and which has no url.
Returns (breadcrumbs, ui stack). -/
def buildBreadcrumbs (endpoint : Endpoint) (parents : List ParentObj)
    (baseUrl : String) (routeId : Option String) :
    Except String (List Crumb × List Crumb) :=
  let terminal : Crumb := ⟨if routeId = some "new" then "New" else "", none⟩
  match endpoint with
  | .root name =>
      .ok ([⟨capitalize name ++ "s", some ("#" ++ baseUrl)⟩, terminal], [])
  | .child _ _ =>
      match crumbLoop endpoint parents 0 baseUrl with
      | .error e => .error e
      | .ok (bcs, ui) => .ok (bcs ++ [terminal], ui)

end Breadcrumbs

section SaveErrors

/-- One entry of the `fieldErrors` array of a rejected save response. -/
structure FieldError where
  field : String
  message : String
deriving DecidableEq

/-- `fieldErrors[field] = fieldErrors[field] || []; fieldErrors[field].push(msg)`
on the insertion-ordered grouping object: append the message to the field's
list if the field is present, otherwise add the field at the end. -/
def pushMsg : List (String × List String) → String → String →
    List (String × List String)
  | [], f, msg => [(f, [msg])]
  | (k, v) :: rest, f, msg =>
      if k = f then (k, v ++ [msg]) :: rest
      else (k, v) :: pushMsg rest f msg

/-- The `_.forEach` grouping loop of `$scope.save`'s rejection handler. -/
def groupFieldErrors (l : List FieldError) : List (String × List String) :=
  l.foldl (fun m e => pushMsg m e.field e.message) []

/-- The scope state touched by the rejection handler: the edit copy and the
`$fieldErrors` mapping (`none` models JS `undefined`). -/
structure DetailScope (α : Type) where
  editDetail : Option α
  fieldErrors : Option (List (String × List String))

/-- The rejection handler of `$scope.save`: without a (truthy) `fieldErrors`
array on the response it sets `$fieldErrors` to `undefined` and returns;
otherwise it groups the errors by field and stores the grouping.  It never
touches `editDetail`, so the scope stays in edit mode. -/
def handleSaveError {α : Type} (respFieldErrors : Option (List FieldError))
    (scope : DetailScope α) : DetailScope α :=
  match respFieldErrors with
  | none => { scope with fieldErrors := none }
  | some l => { scope with fieldErrors := some (groupFieldErrors l) }

/-- The messages of a given field in their order of appearance. -/
def msgsOf (l : List FieldError) (f : String) : List String :=
  l.filterMap (fun e => if e.field = f then some e.message else none)

/-- First binding of a key in the grouping object. -/
def lookupGroup : List (String × List String) → String → Option (List String)
  | [], _ => none
  | (k, v) :: rest, f => if k = f then some v else lookupGroup rest f

end SaveErrors

/-- Abbreviation for a plain (non-array) object literal. -/
def mkObj (fs : Fields) : JsVal := .obj false fs

/-- The bindings of a field list, as a plain list (used to state
element-wise lemma hypotheses). -/
def Fields.toList : Fields → List (String × JsVal)
  | .nil => []
  | .cons k v rest => (k, v) :: rest.toList

/-- Distinctness of the keys at one object level only (the top-level part of
`Fields.wfF`). -/
def Fields.nodupKeys : Fields → Bool
  | .nil => true
  | .cons k _ rest => !rest.hasKey k && rest.nodupKeys

/-- Relation between a field list of a stored config object and a possible
partially-merged version of it: bindings correspond in order and key, and
each value is either untouched or — at a key the merge recursion touches,
drawn from the `allowed` key set with its incoming value in `o` — already
replaced by the merged value.  `assignFields` with source `o` maps related
targets to the same result (`assignFields_relF` below), which is what makes
a repeated `getConfig` call idempotent despite the in-place mutation. -/
inductive RelF (o : JsVal) (allowed : List String) : Fields → Fields → Prop where
  | nil : RelF o allowed .nil .nil
  | consEq (k : String) (v : JsVal) (rest rest' : Fields) :
      RelF o allowed rest rest' →
      RelF o allowed (.cons k v rest) (.cons k v rest')
  | consMerge (k : String) (v sv : JsVal) (rest rest' : Fields) :
      k ∈ allowed → o.getProp k = some sv →
      v.isObject = true → sv.isObject = true →
      RelF o allowed rest rest' →
      RelF o allowed (.cons k v rest) (.cons k (assignDeep v sv) rest')


theorem assignFields_cons (t : JsVal) (k : String) (sv : JsVal) (rest : Fields) :
    assignFields t (.cons k sv rest)
      = assignFields (t.setProp k (customize (t.getProp k) sv)) rest := by
  cases h : t.getProp k <;> simp [assignFields, customize, h]

theorem Fields.sizeOf_lt_of_mem : ∀ {fs : Fields} {p : String × JsVal},
    p ∈ fs.toList → sizeOf p.2 < sizeOf fs
  | .nil, p, h => by simp [Fields.toList] at h
  | .cons k v rest, p, h => by
      simp only [Fields.toList, List.mem_cons] at h
      rcases h with h | h
      · subst h; simp; omega
      · have := Fields.sizeOf_lt_of_mem h; simp; omega

theorem Fields.hasKey_of_mem : ∀ {fs : Fields} {p : String × JsVal},
    p ∈ fs.toList → fs.hasKey p.1 = true
  | .nil, p, h => by simp [Fields.toList] at h
  | .cons k v rest, p, h => by
      simp only [Fields.toList, List.mem_cons] at h
      rcases h with h | h
      · subst h; simp [Fields.hasKey]
      · simp [Fields.hasKey, Fields.hasKey_of_mem h]

theorem Fields.getKey_of_mem : ∀ {fs : Fields} {p : String × JsVal},
    fs.nodupKeys = true → p ∈ fs.toList → fs.getKey p.1 = some p.2
  | .nil, p, _, h => by simp [Fields.toList] at h
  | .cons k v rest, p, hnd, h => by
      simp only [Fields.nodupKeys, Bool.and_eq_true, Bool.not_eq_true'] at hnd
      simp only [Fields.toList, List.mem_cons] at h
      rcases h with h | h
      · subst h; simp [Fields.getKey]
      · have hne : k ≠ p.1 := by
          intro hk
          have := Fields.hasKey_of_mem h
          rw [← hk] at this
          rw [this] at hnd
          exact absurd hnd.1 (by simp)
        simp [Fields.getKey, hne, Fields.getKey_of_mem hnd.2 h]

theorem Fields.wf_of_mem : ∀ {fs : Fields} {p : String × JsVal},
    fs.wfF = true → p ∈ fs.toList → p.2.wf = true
  | .nil, p, _, h => by simp [Fields.toList] at h
  | .cons k v rest, p, hwf, h => by
      simp only [Fields.wfF, Bool.and_eq_true] at hwf
      simp only [Fields.toList, List.mem_cons] at h
      rcases h with h | h
      · subst h; exact hwf.1.2
      · exact Fields.wf_of_mem hwf.2 h

theorem Fields.nodupKeys_of_wfF : ∀ {fs : Fields}, fs.wfF = true →
    fs.nodupKeys = true
  | .nil, _ => rfl
  | .cons k v rest, hwf => by
      simp only [Fields.wfF, Bool.and_eq_true] at hwf
      simp [Fields.nodupKeys, hwf.1.1, Fields.nodupKeys_of_wfF hwf.2]

theorem Fields.getKey_setKey_self : ∀ (fs : Fields) (k : String) (v : JsVal),
    (fs.setKey k v).getKey k = some v
  | .nil, k, v => by simp [Fields.setKey, Fields.getKey]
  | .cons k0 w rest, k, v => by
      by_cases h : k0 = k
      · simp [Fields.setKey, h, Fields.getKey]
      · simp [Fields.setKey, h, Fields.getKey, Fields.getKey_setKey_self rest k v]

theorem Fields.getKey_setKey_ne : ∀ (fs : Fields) {k k' : String} (v : JsVal),
    k' ≠ k → (fs.setKey k v).getKey k' = fs.getKey k'
  | .nil, k, k', v, h => by
      simp [Fields.setKey, Fields.getKey, Ne.symm h]
  | .cons k0 w rest, k, k', v, h => by
      by_cases h0 : k0 = k
      · subst h0
        simp [Fields.setKey, Fields.getKey, Ne.symm h]
      · simp [Fields.setKey, h0, Fields.getKey,
          Fields.getKey_setKey_ne rest v h]

theorem Fields.setKey_getKey_id : ∀ {fs : Fields} {k : String} {v : JsVal},
    fs.getKey k = some v → fs.setKey k v = fs
  | .nil, k, v, h => by simp [Fields.getKey] at h
  | .cons k0 w rest, k, v, h => by
      by_cases h0 : k0 = k
      · subst h0
        simp [Fields.getKey] at h
        simp [Fields.setKey, h]
      · simp only [Fields.getKey, if_neg h0] at h
        simp [Fields.setKey, h0, Fields.setKey_getKey_id h]

theorem Fields.hasKey_setKey : ∀ (fs : Fields) (k k' : String) (v : JsVal),
    (fs.setKey k v).hasKey k' = true ↔ (k = k' ∨ fs.hasKey k' = true)
  | .nil, k, k', v => by simp [Fields.setKey, Fields.hasKey]
  | .cons k0 w rest, k, k', v => by
      by_cases h0 : k0 = k
      · subst h0
        simp only [Fields.setKey, if_pos rfl, Fields.hasKey,
          Bool.or_eq_true, decide_eq_true_eq]
        tauto
      · simp only [Fields.setKey, if_neg h0, Fields.hasKey,
          Bool.or_eq_true, decide_eq_true_eq, Fields.hasKey_setKey rest k k' v]
        tauto

theorem Fields.nodupKeys_setKey : ∀ {fs : Fields} (k : String) (v : JsVal),
    fs.nodupKeys = true → (fs.setKey k v).nodupKeys = true
  | .nil, k, v, _ => by simp [Fields.setKey, Fields.nodupKeys, Fields.hasKey]
  | .cons k0 w rest, k, v, hnd => by
      simp only [Fields.nodupKeys, Bool.and_eq_true, Bool.not_eq_true'] at hnd
      by_cases h0 : k0 = k
      · subst h0
        simp [Fields.setKey, Fields.nodupKeys, hnd.1, hnd.2]
      · simp only [Fields.setKey, if_neg h0, Fields.nodupKeys,
          Bool.and_eq_true, Bool.not_eq_true']
        refine ⟨?_, Fields.nodupKeys_setKey k v hnd.2⟩
        rw [Bool.eq_false_iff]
        intro hmem
        rcases (Fields.hasKey_setKey rest k k0 v).mp hmem with h | h
        · exact h0 h.symm
        · rw [h] at hnd; exact absurd hnd.1 (by simp)

theorem JsVal.isObject_setProp (t : JsVal) (k : String) (v : JsVal) :
    (t.setProp k v).isObject = t.isObject := by
  cases t <;> rfl

theorem JsVal.getProp_setProp_self {t : JsVal} (k : String) (v : JsVal)
    (h : t.isObject = true) : (t.setProp k v).getProp k = some v := by
  cases t <;> simp [JsVal.isObject] at h <;>
    simp [JsVal.setProp, JsVal.getProp, Fields.getKey_setKey_self]

theorem JsVal.getProp_setProp_ne (t : JsVal) {k k' : String} (v : JsVal)
    (h : k' ≠ k) : (t.setProp k v).getProp k' = t.getProp k' := by
  cases t <;> simp [JsVal.setProp, JsVal.getProp, Fields.getKey_setKey_ne _ _ h]

theorem JsVal.setProp_getProp_id {t : JsVal} {k : String} {v : JsVal}
    (h : t.getProp k = some v) : t.setProp k v = t := by
  cases t <;> simp [JsVal.getProp] at h <;>
    simp [JsVal.setProp, Fields.setKey_getKey_id h]

theorem assignFields_nonObject : ∀ {t : JsVal} (fs : Fields),
    t.isObject = false → assignFields t fs = t
  | t, .nil, _ => rfl
  | t, .cons k sv rest, h => by
      have hset : ∀ v, t.setProp k v = t := by
        cases t <;> simp [JsVal.isObject] at h <;> simp [JsVal.setProp]
      rw [assignFields_cons, hset]
      exact assignFields_nonObject rest h

theorem assignDeep_nonObject {t : JsVal} (s : JsVal)
    (h : t.isObject = false) : assignDeep t s = t := by
  cases s <;> simp [assignDeep]
  exact assignFields_nonObject _ h

theorem assignFields_isObject : ∀ {t : JsVal} (fs : Fields),
    t.isObject = true → (assignFields t fs).isObject = true
  | t, .nil, h => h
  | t, .cons k sv rest, h => by
      rw [assignFields_cons]
      exact assignFields_isObject rest (by rw [JsVal.isObject_setProp]; exact h)

theorem assignDeep_isObject {t : JsVal} (s : JsVal)
    (h : t.isObject = true) : (assignDeep t s).isObject = true := by
  cases s <;> simp [assignDeep] <;> try exact h
  exact assignFields_isObject _ h

theorem getProp_assignFields_notKey : ∀ {t : JsVal} {fs : Fields} {k : String},
    fs.hasKey k = false → (assignFields t fs).getProp k = t.getProp k
  | t, .nil, k, _ => rfl
  | t, .cons k0 sv rest, k, h => by
      simp only [Fields.hasKey, Bool.or_eq_false_iff, decide_eq_false_iff_not] at h
      rw [assignFields_cons,
        getProp_assignFields_notKey (by simp [h.2]),
        JsVal.getProp_setProp_ne _ _ (fun hh => h.1 hh.symm)]

theorem customize_self (sv : JsVal)
    (hself : sv.isObject = true → assignDeep sv sv = sv) :
    customize (some sv) sv = sv := by
  by_cases hobj : sv.isObject = true
  · simp [customize, hobj, hself hobj]
  · simp only [Bool.not_eq_true] at hobj
    simp [customize, hobj]

theorem customize_idem (tvOpt : Option JsVal) (sv : JsVal)
    (hself : sv.isObject = true → assignDeep sv sv = sv)
    (hidem : ∀ u, assignDeep (assignDeep u sv) sv = assignDeep u sv) :
    customize (some (customize tvOpt sv)) sv = customize tvOpt sv := by
  cases tvOpt with
  | none =>
      show customize (some sv) sv = sv
      exact customize_self sv hself
  | some tv =>
      by_cases h1 : tv.isObject = true
      · by_cases h2 : sv.isObject = true
        · have hres : (assignDeep tv sv).isObject = true := assignDeep_isObject sv h1
          simp [customize, h1, h2, hres, hidem tv]
        · simp only [Bool.not_eq_true] at h2
          simp [customize, h2]
      · simp only [Bool.not_eq_true] at h1
        have hin : customize (some tv) sv = sv := by simp [customize, h1]
        rw [hin]
        exact customize_self sv hself


theorem assignFields_fix : ∀ (x : JsVal) (fs : Fields),
    (∀ p ∈ fs.toList, x.getProp p.1 = some p.2 ∧
       (p.2.isObject = true → assignDeep p.2 p.2 = p.2)) →
    assignFields x fs = x
  | x, .nil, _ => rfl
  | x, .cons k sv rest, h => by
      obtain ⟨hget, hself⟩ := h (k, sv) (by simp [Fields.toList])
      have hcust : customize (x.getProp k) sv = sv := by
        rw [hget]
        exact customize_self sv hself
      rw [assignFields_cons, hcust, JsVal.setProp_getProp_id hget]
      exact assignFields_fix x rest (fun p hp => h p (by simp [Fields.toList, hp]))

theorem assignFields_idem : ∀ (fs : Fields) (t : JsVal),
    fs.nodupKeys = true →
    (∀ p ∈ fs.toList,
       (p.2.isObject = true → assignDeep p.2 p.2 = p.2) ∧
       (∀ u, assignDeep (assignDeep u p.2) p.2 = assignDeep u p.2)) →
    assignFields (assignFields t fs) fs = assignFields t fs
  | .nil, t, _, _ => rfl
  | .cons k sv rest, t, hnd, h => by
      by_cases ht : t.isObject = true
      case neg =>
        have ht' : t.isObject = false := by simpa using ht
        rw [assignFields_nonObject _ ht', assignFields_nonObject _ ht']
      case pos =>
        obtain ⟨hself, hidem⟩ := h (k, sv) (by simp [Fields.toList])
        have hnd' : rest.hasKey k = false ∧ rest.nodupKeys = true := by
          simpa [Fields.nodupKeys, Bool.and_eq_true, Bool.not_eq_true'] using hnd
        have hAobj : (t.setProp k (customize (t.getProp k) sv)).isObject = true := by
          rw [JsVal.isObject_setProp]; exact ht
        have hIk : (assignFields (t.setProp k (customize (t.getProp k) sv)) rest).getProp k
            = some (customize (t.getProp k) sv) := by
          rw [getProp_assignFields_notKey hnd'.1, JsVal.getProp_setProp_self _ _ ht]
        calc assignFields (assignFields t (.cons k sv rest)) (.cons k sv rest)
            = assignFields
                (assignFields (t.setProp k (customize (t.getProp k) sv)) rest)
                (.cons k sv rest) := by rw [assignFields_cons t k sv rest]
          _ = assignFields
                ((assignFields (t.setProp k (customize (t.getProp k) sv)) rest).setProp k
                  (customize
                    ((assignFields (t.setProp k (customize (t.getProp k) sv)) rest).getProp k)
                    sv))
                rest := assignFields_cons _ _ _ _
          _ = assignFields
                ((assignFields (t.setProp k (customize (t.getProp k) sv)) rest).setProp k
                  (customize (t.getProp k) sv))
                rest := by
                  rw [hIk, customize_idem (t.getProp k) sv hself hidem]
          _ = assignFields
                (assignFields (t.setProp k (customize (t.getProp k) sv)) rest)
                rest := by rw [JsVal.setProp_getProp_id hIk]
          _ = assignFields (t.setProp k (customize (t.getProp k) sv)) rest :=
                assignFields_idem rest _ hnd'.2
                  (fun p hp => h p (by simp [Fields.toList, hp]))
          _ = assignFields t (.cons k sv rest) := (assignFields_cons _ _ _ _).symm

theorem assignDeep_self : ∀ (v : JsVal), v.wf = true → assignDeep v v = v
  | .undef, _ => rfl
  | .bool _, _ => rfl
  | .num _, _ => rfl
  | .str _, _ => rfl
  | .obj b fs, h => by
      have hwf : fs.wfF = true := h
      show assignFields (JsVal.obj b fs) fs = JsVal.obj b fs
      apply assignFields_fix
      intro p hp
      refine ⟨?_, fun _ => assignDeep_self p.2 (Fields.wf_of_mem hwf hp)⟩
      show Fields.getKey fs p.1 = some p.2
      exact Fields.getKey_of_mem (Fields.nodupKeys_of_wfF hwf) hp
termination_by v => sizeOf v
decreasing_by
  simp only [JsVal.obj.sizeOf_spec]
  have := Fields.sizeOf_lt_of_mem hp
  omega

theorem assignDeep_idem : ∀ (s : JsVal) (t : JsVal), s.wf = true →
    assignDeep (assignDeep t s) s = assignDeep t s
  | .undef, _, _ => rfl
  | .bool _, _, _ => rfl
  | .num _, _, _ => rfl
  | .str _, _, _ => rfl
  | .obj b fs, t, h => by
      have hwf : fs.wfF = true := h
      show assignFields (assignFields t fs) fs = assignFields t fs
      apply assignFields_idem fs t (Fields.nodupKeys_of_wfF hwf)
      intro p hp
      exact ⟨fun _ => assignDeep_self p.2 (Fields.wf_of_mem hwf hp),
             fun u => assignDeep_idem p.2 u (Fields.wf_of_mem hwf hp)⟩
termination_by s t => sizeOf s
decreasing_by
  simp only [JsVal.obj.sizeOf_spec]
  have := Fields.sizeOf_lt_of_mem hp
  omega

theorem JsVal.getProp_nonObject {t : JsVal} (k : String)
    (h : t.isObject = false) : t.getProp k = none := by
  cases t <;> simp [JsVal.isObject] at h <;> simp [JsVal.getProp]

theorem RelF_eq {o : JsVal} {A : List String} {fs fs' : Fields}
    (hrel : RelF o A fs fs') (hA : ∀ a ∈ A, False) : fs = fs' := by
  induction hrel with
  | nil => rfl
  | consEq k v rest rest' _ ih => rw [ih]
  | consMerge k v sv rest rest' hmem _ _ _ _ _ => exact absurd hmem (hA k)

theorem RelF_getKey {o : JsVal} {A : List String} {fs fs' : Fields}
    (hrel : RelF o A fs fs') (k : String) :
    (fs.getKey k = none ∧ fs'.getKey k = none) ∨
    (∃ v, fs.getKey k = some v ∧
      (fs'.getKey k = some v ∨
       (k ∈ A ∧ ∃ sv, o.getProp k = some sv ∧ v.isObject = true ∧
         sv.isObject = true ∧ fs'.getKey k = some (assignDeep v sv)))) := by
  induction hrel with
  | nil => exact Or.inl ⟨rfl, rfl⟩
  | consEq k0 v rest rest' _ ih =>
      by_cases h0 : k0 = k
      · subst h0
        exact Or.inr ⟨v, by simp [Fields.getKey], Or.inl (by simp [Fields.getKey])⟩
      · simpa [Fields.getKey, h0] using ih
  | consMerge k0 v sv rest rest' hmem hsv h1 h2 _ ih =>
      by_cases h0 : k0 = k
      · subst h0
        exact Or.inr ⟨v, by simp [Fields.getKey],
          Or.inr ⟨hmem, sv, hsv, h1, h2, by simp [Fields.getKey]⟩⟩
      · simpa [Fields.getKey, h0] using ih

theorem RelF_restrict {o : JsVal} {A B : List String} {fs fs' : Fields}
    (hrel : RelF o A fs fs')
    (h : ∀ k, fs.hasKey k = true → k ∈ A → k ∈ B) : RelF o B fs fs' := by
  induction hrel with
  | nil => exact RelF.nil
  | consEq k v rest rest' hr ih =>
      exact RelF.consEq k v rest rest'
        (ih (fun k' hh hmem => h k' (by simp [Fields.hasKey, hh]) hmem))
  | consMerge k v sv rest rest' hmem hsv h1 h2 hr ih =>
      exact RelF.consMerge k v sv rest rest'
        (h k (by simp [Fields.hasKey]) hmem) hsv h1 h2
        (ih (fun k' hh hmem => h k' (by simp [Fields.hasKey, hh]) hmem))

theorem RelF_setKey {o : JsVal} {A : List String} {fs fs' : Fields}
    (k : String) (c : JsVal)
    (hnd : fs.nodupKeys = true) (hrel : RelF o A fs fs') :
    RelF o (A.filter (fun a => a != k)) (fs.setKey k c) (fs'.setKey k c) := by
  induction hrel with
  | nil =>
      show RelF o _ (.cons k c .nil) (.cons k c .nil)
      exact RelF.consEq k c .nil .nil RelF.nil
  | consEq k0 v rest rest' hr ih =>
      have hnd' : rest.hasKey k0 = false ∧ rest.nodupKeys = true := by
        simpa [Fields.nodupKeys, Bool.and_eq_true, Bool.not_eq_true'] using hnd
      by_cases h0 : k0 = k
      · subst h0
        simp only [Fields.setKey, if_pos rfl]
        refine RelF.consEq k0 c rest rest' (RelF_restrict hr ?_)
        intro k' hh hmem
        refine List.mem_filter.mpr ⟨hmem, ?_⟩
        have : k' ≠ k0 := by
          intro he; subst he; rw [hh] at hnd'; exact absurd hnd'.1 (by simp)
        simpa using this
      · simp only [Fields.setKey, if_neg h0]
        exact RelF.consEq k0 v _ _ (ih hnd'.2)
  | consMerge k0 v sv rest rest' hmem hsv h1 h2 hr ih =>
      have hnd' : rest.hasKey k0 = false ∧ rest.nodupKeys = true := by
        simpa [Fields.nodupKeys, Bool.and_eq_true, Bool.not_eq_true'] using hnd
      by_cases h0 : k0 = k
      · subst h0
        simp only [Fields.setKey, if_pos rfl]
        refine RelF.consEq k0 c rest rest' (RelF_restrict hr ?_)
        intro k' hh hmem
        refine List.mem_filter.mpr ⟨hmem, ?_⟩
        have : k' ≠ k0 := by
          intro he; subst he; rw [hh] at hnd'; exact absurd hnd'.1 (by simp)
        simpa using this
      · simp only [Fields.setKey, if_neg h0]
        refine RelF.consMerge k0 v sv _ _ ?_ hsv h1 h2 (ih hnd'.2)
        refine List.mem_filter.mpr ⟨hmem, by simpa using h0⟩

theorem storedFields_rel : ∀ (fs : Fields) (o : JsVal) (A : List String),
    (∀ k sv, o.getProp k = some sv → k ∈ A) →
    RelF o A fs (storedFields fs o)
  | .nil, o, A, _ => RelF.nil
  | .cons k tv rest, o, A, hA => by
      cases hk : o.getProp k with
      | none =>
          simp only [storedFields, hk]
          exact RelF.consEq k tv _ _ (storedFields_rel rest o A hA)
      | some sv =>
          by_cases hobj : tv.isObject = true ∧ sv.isObject = true
          · simp only [storedFields, hk, hobj.1, hobj.2, Bool.and_self, if_true]
            exact RelF.consMerge k tv sv _ _ (hA k sv hk) hk hobj.1 hobj.2
              (storedFields_rel rest o A hA)
          · have hcond : (tv.isObject && sv.isObject) = false := by
              rw [Bool.eq_false_iff]
              intro hc
              exact hobj (by simpa using hc)
            simp only [storedFields, hk, hcond, Bool.false_eq_true, if_false]
            exact RelF.consEq k tv _ _ (storedFields_rel rest o A hA)

theorem assignFields_relF : ∀ (gs : Fields) (o : JsVal) (A : List String)
    (b : Bool) (fs fs' : Fields),
    gs.nodupKeys = true →
    (∀ q ∈ gs.toList, q.2.wf = true) →
    (∀ q ∈ gs.toList, o.getProp q.1 = some q.2) →
    (∀ a ∈ A, gs.hasKey a = true) →
    fs.nodupKeys = true →
    RelF o A fs fs' →
    assignFields (.obj b fs') gs = assignFields (.obj b fs) gs
  | .nil, o, A, b, fs, fs', _, _, _, hallow, _, hrel => by
      have hfs : fs = fs' := by
        refine RelF_eq hrel ?_
        intro a ha
        have := hallow a ha
        simp [Fields.hasKey] at this
      rw [hfs]
  | .cons k sv grest, o, A, b, fs, fs', hnd, hwf, hagree, hallow, hfsnd, hrel => by
      have hndg : grest.hasKey k = false ∧ grest.nodupKeys = true := by
        simpa [Fields.nodupKeys, Bool.and_eq_true, Bool.not_eq_true'] using hnd
      have hsvwf : sv.wf = true := hwf (k, sv) (by simp [Fields.toList])
      have hosv : o.getProp k = some sv := hagree (k, sv) (by simp [Fields.toList])
      have hcc : customize (fs'.getKey k) sv = customize (fs.getKey k) sv := by
        rcases RelF_getKey hrel k with ⟨h1, h2⟩ | ⟨v, h1, h2 | ⟨_, sv0, hsv0, hvo, hsvo, h2⟩⟩
        · rw [h1, h2]
        · rw [h1, h2]
        · have hsv0' : sv0 = sv := by
            rw [hosv] at hsv0
            injection hsv0 with hinj
            exact hinj.symm
          rw [hsv0'] at h2 hsvo
          rw [h1, h2]
          have hres : (assignDeep v sv).isObject = true := assignDeep_isObject sv hvo
          simp [customize, hvo, hsvo, hres, assignDeep_idem sv v hsvwf]
      rw [assignFields_cons (JsVal.obj b fs') k sv grest,
          assignFields_cons (JsVal.obj b fs) k sv grest]
      show assignFields (JsVal.obj b (fs'.setKey k (customize (fs'.getKey k) sv))) grest
         = assignFields (JsVal.obj b (fs.setKey k (customize (fs.getKey k) sv))) grest
      rw [hcc]
      refine assignFields_relF grest o (A.filter (fun a => a != k)) b _ _
        hndg.2
        (fun q hq => hwf q (by simp [Fields.toList, hq]))
        (fun q hq => hagree q (by simp [Fields.toList, hq]))
        ?_
        (Fields.nodupKeys_setKey _ _ hfsnd)
        (RelF_setKey k (customize (fs.getKey k) sv) hfsnd hrel)
      intro a ha
      rcases List.mem_filter.mp ha with ⟨hmA, hak⟩
      have := hallow a hmA
      simp only [Fields.hasKey, Bool.or_eq_true, decide_eq_true_eq] at this
      rcases this with h | h
      · exact absurd h.symm (by simpa using hak)
      · exact h

theorem storedFields_nonObject_src : ∀ (fs : Fields) (o : JsVal),
    o.isObject = false → storedFields fs o = fs
  | .nil, _, _ => rfl
  | .cons k tv rest, o, h => by
      simp only [storedFields, JsVal.getProp_nonObject k h]
      rw [storedFields_nonObject_src rest o h]

theorem storedAfter_nonObject {v : JsVal} (o : JsVal)
    (h : v.isObject = false) : storedAfter v o = v := by
  cases v <;> simp [JsVal.isObject] at h <;> simp [storedAfter]

theorem storedAfter_undef_iff (v o : JsVal) :
    storedAfter v o = JsVal.undef ↔ v = JsVal.undef := by
  cases v <;> simp [storedAfter]

theorem storedFields_keys : ∀ (fs : Fields) (o : JsVal),
    (storedFields fs o).keys = fs.keys
  | .nil, _ => rfl
  | .cons k tv rest, o => by
      simp only [storedFields, Fields.keys]
      rw [storedFields_keys rest o]

theorem storedFields_getKey_untouched : ∀ (fs : Fields) (o : JsVal)
    (k : String) (tv : JsVal),
    fs.getKey k = some tv →
    (o.getProp k = none ∨ tv.isObject = false ∨
      (∀ sv, o.getProp k = some sv → sv.isObject = false)) →
    (storedFields fs o).getKey k = some tv
  | .nil, _, _, _, hget, _ => by simp [Fields.getKey] at hget
  | .cons k0 v0 rest, o, k, tv, hget, huntouched => by
      by_cases h0 : k0 = k
      · subst h0
        simp [Fields.getKey] at hget
        subst hget
        rcases huntouched with h | h | h
        · simp [storedFields, h, Fields.getKey]
        · simp only [storedFields]
          cases ho : o.getProp k0 with
          | none => simp [Fields.getKey]
          | some sv => simp [Fields.getKey, h]
        · simp only [storedFields]
          cases ho : o.getProp k0 with
          | none => simp [Fields.getKey]
          | some sv => simp [Fields.getKey, h sv ho]
      · simp only [Fields.getKey, if_neg h0] at hget
        simp only [storedFields, Fields.getKey, if_neg h0]
        exact storedFields_getKey_untouched rest o k tv hget huntouched

theorem lookupReg_mutateReg_self (name : String) (o : JsVal) :
    ∀ regs : Registry, lookupReg (mutateReg regs name o) name
      = (lookupReg regs name).map (fun v => storedAfter v o) := by
  intro regs
  induction regs with
  | nil => rfl
  | cons p rest ih =>
      obtain ⟨n, v⟩ := p
      by_cases h : n = name
      · simp [mutateReg, lookupReg, h]
      · simp [mutateReg, lookupReg, h, ih]

theorem lookupReg_mutateReg_ne (name n : String) (o : JsVal) (hne : n ≠ name) :
    ∀ regs : Registry, lookupReg (mutateReg regs name o) n = lookupReg regs n := by
  intro regs
  induction regs with
  | nil => rfl
  | cons p rest ih =>
      obtain ⟨n0, v⟩ := p
      simp only [mutateReg]
      by_cases h : n0 = name
      · rw [if_pos h]
        have hn0 : n0 ≠ n := by rw [h]; exact Ne.symm hne
        simp [lookupReg, hn0]
      · rw [if_neg h]
        simp only [lookupReg]
        by_cases h1 : n0 = n
        · rw [if_pos h1, if_pos h1]
        · rw [if_neg h1, if_neg h1]; exact ih

theorem lookupReg_wf {regs : Registry} {name : String} {v : JsVal}
    (hwf : wfReg regs = true) (h : lookupReg regs name = some v) :
    v.wf = true := by
  induction regs with
  | nil => simp [lookupReg] at h
  | cons p rest ih =>
      obtain ⟨n0, v0⟩ := p
      simp only [wfReg, Bool.and_eq_true] at hwf
      by_cases h0 : n0 = name
      · simp [lookupReg, h0] at h
        rw [← h]
        exact hwf.1
      · simp only [lookupReg, if_neg h0] at h
        exact ih hwf.2 h

theorem lookupReg_setReg_self (name : String) (v : JsVal) :
    ∀ regs : Registry, lookupReg (setReg regs name v) name = some v := by
  intro regs
  induction regs with
  | nil => simp [setReg, lookupReg]
  | cons p rest ih =>
      obtain ⟨n0, v0⟩ := p
      by_cases h0 : n0 = name
      · simp [setReg, lookupReg, h0]
      · simp [setReg, lookupReg, h0, ih]

theorem lookupReg_setReg_ne (name n : String) (v : JsVal) (hne : n ≠ name) :
    ∀ regs : Registry, lookupReg (setReg regs name v) n = lookupReg regs n := by
  intro regs
  induction regs with
  | nil => simp [setReg, lookupReg, Ne.symm hne]
  | cons p rest ih =>
      obtain ⟨n0, v0⟩ := p
      simp only [setReg]
      by_cases h0 : n0 = name
      · rw [if_pos h0]
        have hn0 : n0 ≠ n := by rw [h0]; exact Ne.symm hne
        simp [lookupReg, hn0, Ne.symm hne]
      · rw [if_neg h0]
        simp only [lookupReg]
        by_cases h1 : n0 = n
        · rw [if_pos h1, if_pos h1]
        · rw [if_neg h1, if_neg h1]; exact ih

theorem JsVal.truthy_of_isObject {v : JsVal} (h : v.isObject = true) :
    v.truthy = true := by
  cases v <;> simp [JsVal.isObject] at h <;> rfl

theorem Fields.mem_keys_of_getKey : ∀ {fs : Fields} {k : String} {v : JsVal},
    fs.getKey k = some v → k ∈ fs.keys
  | .nil, k, v, h => by simp [Fields.getKey] at h
  | .cons k0 w rest, k, v, h => by
      by_cases h0 : k0 = k
      · subst h0; simp [Fields.keys]
      · simp only [Fields.getKey, if_neg h0] at h
        simp [Fields.keys, Fields.mem_keys_of_getKey h]

theorem Fields.hasKey_of_mem_keys : ∀ {fs : Fields} {k : String},
    k ∈ fs.keys → fs.hasKey k = true
  | .nil, k, h => by simp [Fields.keys] at h
  | .cons k0 w rest, k, h => by
      simp only [Fields.keys, List.mem_cons] at h
      rcases h with h | h
      · simp [Fields.hasKey, h]
      · simp [Fields.hasKey, Fields.hasKey_of_mem_keys h]

theorem mutateReg_absent (name : String) (o : JsVal) :
    ∀ {regs : Registry}, lookupReg regs name = none →
      mutateReg regs name o = regs := by
  intro regs
  induction regs with
  | nil => intro _; rfl
  | cons p rest ih =>
      obtain ⟨n0, v0⟩ := p
      intro h
      by_cases h0 : n0 = name
      · simp [lookupReg, h0] at h
      · simp only [lookupReg, if_neg h0] at h
        simp [mutateReg, h0, ih h]

/-- Claim C7: `getConfig` returns `undefined` exactly when nothing is
registered under the name and the options argument is `undefined`; in every
other case (registered configs being objects, per the data model) the result
is an object. -/
theorem claim7_resolve_undefined_iff (regs : Registry) (name : String)
    (options : JsVal)
    (hobj : ∀ v, lookupReg regs name = some v → v.isObject = true) :
    (getConfig regs name options = JsVal.undef ↔
      (lookupReg regs name = none ∧ options = JsVal.undef))
    ∧ (getConfig regs name options ≠ JsVal.undef →
        (getConfig regs name options).isObject = true) := by
  cases hs : lookupReg regs name with
  | none =>
      by_cases ho : options = JsVal.undef
      · subst ho
        simp [getConfig, hs]
      · have hne : getConfig regs name options = assignDeep emptyObj options := by
          simp [getConfig, hs, ho, clone, jsOr, JsVal.truthy]
        have hio : (assignDeep emptyObj options).isObject = true :=
          assignDeep_isObject options rfl
        constructor
        · rw [hne]
          constructor
          · intro h
            rw [h] at hio
            simp [JsVal.isObject] at hio
          · rintro ⟨_, h2⟩
            exact absurd h2 ho
        · intro _
          rw [hne]
          exact hio
  | some v =>
      have hv : v.isObject = true := hobj v hs
      have hvne : v ≠ JsVal.undef := by
        intro h; rw [h] at hv; simp [JsVal.isObject] at hv
      have e : getConfig regs name options = assignDeep v options := by
        simp [getConfig, hs, clone, hvne, jsOr, JsVal.truthy_of_isObject hv]
      have hio : (assignDeep v options).isObject = true :=
        assignDeep_isObject options hv
      constructor
      · rw [e]
        constructor
        · intro h
          rw [h] at hio
          simp [JsVal.isObject] at hio
        · rintro ⟨h1, _⟩
          exact absurd h1 (by simp)
      · intro _
        rw [e]
        exact hio

theorem claim7_witness :
    (∀ v, lookupReg [("x", mkObj .nil)] "x" = some v → v.isObject = true)
    ∧ ((getConfig [("x", mkObj .nil)] "x" JsVal.undef = JsVal.undef ↔
        (lookupReg [("x", mkObj .nil)] "x" = none ∧ JsVal.undef = JsVal.undef))
      ∧ (getConfig [("x", mkObj .nil)] "x" JsVal.undef ≠ JsVal.undef →
          (getConfig [("x", mkObj .nil)] "x" JsVal.undef).isObject = true)) := by
  have hobj : ∀ v, lookupReg [("x", mkObj .nil)] "x" = some v →
      v.isObject = true := by
    intro v h
    simp [lookupReg, mkObj] at h
    rw [← h]
    rfl
  exact ⟨hobj, claim7_resolve_undefined_iff [("x", mkObj .nil)] "x" JsVal.undef hobj⟩

/-- Claim C8: a `getConfig` call is idempotent despite the in-place mutation
of stored nested objects: calling again with identical arguments, from the
registry state left by the first call, returns a (deep-)equal result. -/
theorem claim8_resolve_idempotent (regs : Registry) (name : String)
    (options : JsVal) (hreg : wfReg regs = true) (hopt : options.wf = true) :
    (getConfigCall (getConfigCall regs name options).2 name options).1
      = (getConfigCall regs name options).1 := by
  show getConfig (mutateReg regs name options) name options
      = getConfig regs name options
  cases hs : lookupReg regs name with
  | none =>
      rw [mutateReg_absent name options hs]
  | some sval =>
      have h2 : lookupReg (mutateReg regs name options) name
          = some (storedAfter sval options) := by
        rw [lookupReg_mutateReg_self, hs]
        rfl
      have hwfs : sval.wf = true := lookupReg_wf hreg hs
      cases sval with
      | undef => simp [getConfig, hs, h2, storedAfter]
      | bool b => simp [getConfig, hs, h2, storedAfter]
      | num n => simp [getConfig, hs, h2, storedAfter]
      | str s0 => simp [getConfig, hs, h2, storedAfter]
      | obj bb fs =>
          have hne : (JsVal.obj bb fs) ≠ JsVal.undef := by simp
          have hne2 : (JsVal.obj bb (storedFields fs options)) ≠ JsVal.undef := by simp
          have e1 : getConfig regs name options
              = assignDeep (JsVal.obj bb fs) options := by
            simp [getConfig, hs, clone, jsOr, JsVal.truthy]
          have e2 : getConfig (mutateReg regs name options) name options
              = assignDeep (JsVal.obj bb (storedFields fs options)) options := by
            simp [getConfig, h2, clone, storedAfter, jsOr, JsVal.truthy]
          rw [e1, e2]
          cases options with
          | undef => simp [assignDeep, storedFields_nonObject_src fs JsVal.undef rfl]
          | bool b2 => simp [assignDeep, storedFields_nonObject_src fs (JsVal.bool b2) rfl]
          | num n2 => simp [assignDeep, storedFields_nonObject_src fs (JsVal.num n2) rfl]
          | str s2 => simp [assignDeep, storedFields_nonObject_src fs (JsVal.str s2) rfl]
          | obj ob gs =>
              have hgwf : gs.wfF = true := hopt
              have hfwf : fs.wfF = true := hwfs
              show assignFields (JsVal.obj bb (storedFields fs (JsVal.obj ob gs))) gs
                  = assignFields (JsVal.obj bb fs) gs
              refine assignFields_relF gs (JsVal.obj ob gs) gs.keys bb fs
                (storedFields fs (JsVal.obj ob gs))
                (Fields.nodupKeys_of_wfF hgwf)
                (fun q hq => Fields.wf_of_mem hgwf hq)
                (fun q hq =>
                  Fields.getKey_of_mem (Fields.nodupKeys_of_wfF hgwf) hq)
                (fun a ha => Fields.hasKey_of_mem_keys ha)
                (Fields.nodupKeys_of_wfF hfwf)
                (storedFields_rel fs (JsVal.obj ob gs) gs.keys ?_)
              intro k sv h
              exact Fields.mem_keys_of_getKey h

theorem claim8_witness :
    wfReg [("n", mkObj (.cons "a" (mkObj (.cons "x" (.num 0) .nil)) .nil))] = true
    ∧ (mkObj (.cons "a" (mkObj (.cons "x" (.num 1) .nil)) .nil)).wf = true
    ∧ (getConfigCall
        (getConfigCall [("n", mkObj (.cons "a" (mkObj (.cons "x" (.num 0) .nil)) .nil))]
          "n" (mkObj (.cons "a" (mkObj (.cons "x" (.num 1) .nil)) .nil))).2
        "n" (mkObj (.cons "a" (mkObj (.cons "x" (.num 1) .nil)) .nil))).1
      = (getConfigCall [("n", mkObj (.cons "a" (mkObj (.cons "x" (.num 0) .nil)) .nil))]
          "n" (mkObj (.cons "a" (mkObj (.cons "x" (.num 1) .nil)) .nil))).1 :=
  ⟨by decide, by decide,
   claim8_resolve_idempotent _ _ _ (by decide) (by decide)⟩

/-- Counterexample to claim C2: with `a` registered as the object with field
`x = 1` and options binding `a` to the array `[1, 2]`, the resolved value at
`a` is not the array: lodash `_.isObject` is true for arrays, so the
customizer recurses and the array's index keys are merged into the object,
yielding the object with fields `x = 1`, `0 = 1`, `1 = 2`. -/
theorem claim2_counterexample :
    ¬ (getConfig [("cfg", mkObj (.cons "a" (mkObj (.cons "x" (.num 1) .nil)) .nil))]
        "cfg"
        (mkObj (.cons "a" (.obj true (.cons "0" (.num 1) (.cons "1" (.num 2) .nil))) .nil))
      = mkObj (.cons "a" (.obj true (.cons "0" (.num 1) (.cons "1" (.num 2) .nil))) .nil)) := by
  decide

/-- Claim C2 as amended: with `a:(x:1)` registered under any name and options
`a:[1,2]`, resolution merges the array's index keys into the existing object
(no wholesale replacement), returning `a:(x:1, "0":1, "1":2)` as a plain
object. -/
theorem claim2_amended_array_merges (name : String) :
    getConfig [(name, mkObj (.cons "a" (mkObj (.cons "x" (.num 1) .nil)) .nil))]
      name
      (mkObj (.cons "a" (.obj true (.cons "0" (.num 1) (.cons "1" (.num 2) .nil))) .nil))
    = mkObj (.cons "a"
        (mkObj (.cons "x" (.num 1) (.cons "0" (.num 1) (.cons "1" (.num 2) .nil)))) .nil) := by
  have hl : lookupReg [(name, mkObj (.cons "a" (mkObj (.cons "x" (.num 1) .nil)) .nil))] name
      = some (mkObj (.cons "a" (mkObj (.cons "x" (.num 1) .nil)) .nil)) := by
    simp [lookupReg]
  simp only [getConfig, hl, Option.getD_some, clone]
  decide

theorem claim2_witness :
    getConfig [("cfg", mkObj (.cons "a" (mkObj (.cons "x" (.num 1) .nil)) .nil))]
      "cfg"
      (mkObj (.cons "a" (.obj true (.cons "0" (.num 1) (.cons "1" (.num 2) .nil))) .nil))
    = mkObj (.cons "a"
        (mkObj (.cons "x" (.num 1) (.cons "0" (.num 1) (.cons "1" (.num 2) .nil)))) .nil) :=
  claim2_amended_array_merges "cfg"

/-- Claim C4: with `a:(x:0, y:2)` registered under any name and options
`a:(x:1)`, resolution merges nested objects key-wise: the incoming `x` wins
and the sibling `y` is preserved, yielding `a:(x:1, y:2)`. -/
theorem claim4_nested_merge (name : String) :
    getConfig
      [(name, mkObj (.cons "a" (mkObj (.cons "x" (.num 0) (.cons "y" (.num 2) .nil))) .nil))]
      name
      (mkObj (.cons "a" (mkObj (.cons "x" (.num 1) .nil)) .nil))
    = mkObj (.cons "a" (mkObj (.cons "x" (.num 1) (.cons "y" (.num 2) .nil))) .nil) := by
  have hl : lookupReg
      [(name, mkObj (.cons "a" (mkObj (.cons "x" (.num 0) (.cons "y" (.num 2) .nil))) .nil))]
      name
      = some (mkObj (.cons "a" (mkObj (.cons "x" (.num 0) (.cons "y" (.num 2) .nil))) .nil)) := by
    simp [lookupReg]
  simp only [getConfig, hl, Option.getD_some, clone]
  decide

theorem claim4_witness :
    getConfig
      [("w", mkObj (.cons "a" (mkObj (.cons "x" (.num 0) (.cons "y" (.num 2) .nil))) .nil))]
      "w"
      (mkObj (.cons "a" (mkObj (.cons "x" (.num 1) .nil)) .nil))
    = mkObj (.cons "a" (mkObj (.cons "x" (.num 1) (.cons "y" (.num 2) .nil))) .nil) :=
  claim4_nested_merge "w"

/-- Counterexample to claim C3: a `getConfig` call does mutate the stored
registered config.  With `a:(x:0)` registered and options `a:(x:1)`, the
shallow clone shares the nested object bound to `a` with the stored config,
and the recursive merge writes `x = 1` into it in place: after the call the
registry holds `a:(x:1)`, not the original `a:(x:0)`. -/
theorem claim3_counterexample :
    (getConfigCall [("n", mkObj (.cons "a" (mkObj (.cons "x" (.num 0) .nil)) .nil))]
        "n" (mkObj (.cons "a" (mkObj (.cons "x" (.num 1) .nil)) .nil))).2
      ≠ [("n", mkObj (.cons "a" (mkObj (.cons "x" (.num 0) .nil)) .nil))] := by
  decide

/-- Claim C3 as amended: a `getConfig` call never touches bindings of other
names, never reassigns or reorders the top-level bindings of the config
registered under the given name (its key list is preserved), and leaves
every top-level binding intact whose key the merge does not touch (key
absent from the options, stored value non-composite, or incoming value
non-composite); only nested objects at keys where both sides are composite
are mutated in place to the merged value.  The options argument itself is
never written to (the merge writes only into the target side). -/
theorem claim3_amended_frame (regs : Registry) (name : String)
    (options : JsVal) :
    (∀ n, n ≠ name →
      lookupReg (getConfigCall regs name options).2 n = lookupReg regs n)
    ∧ (lookupReg regs name = none → (getConfigCall regs name options).2 = regs)
    ∧ (∀ v, lookupReg regs name = some v → v.isObject = false →
        lookupReg (getConfigCall regs name options).2 name = some v)
    ∧ (∀ b fs, lookupReg regs name = some (.obj b fs) →
        ∃ fs2, lookupReg (getConfigCall regs name options).2 name
            = some (.obj b fs2)
          ∧ fs2.keys = fs.keys
          ∧ (∀ k tv, fs.getKey k = some tv →
              (options.getProp k = none ∨ tv.isObject = false ∨
                (∀ sv, options.getProp k = some sv → sv.isObject = false)) →
              fs2.getKey k = some tv)) := by
  refine ⟨?_, ?_, ?_, ?_⟩
  · intro n hn
    exact lookupReg_mutateReg_ne name n options hn regs
  · intro h
    show mutateReg regs name options = regs
    exact mutateReg_absent name options h
  · intro v hv hvno
    show lookupReg (mutateReg regs name options) name = some v
    rw [lookupReg_mutateReg_self, hv, Option.map_some',
      storedAfter_nonObject options hvno]
  · intro b fs hv
    refine ⟨storedFields fs options, ?_, storedFields_keys fs options, ?_⟩
    · show lookupReg (mutateReg regs name options) name
        = some (JsVal.obj b (storedFields fs options))
      rw [lookupReg_mutateReg_self, hv, Option.map_some']
      rfl
    · intro k tv hget huntouched
      exact storedFields_getKey_untouched fs options k tv hget huntouched

theorem claim3_witness :
    ((∀ n, n ≠ "n" →
      lookupReg (getConfigCall [("n", mkObj (.cons "a" (mkObj (.cons "x" (.num 0) .nil)) .nil))]
          "n" (mkObj (.cons "a" (mkObj (.cons "x" (.num 1) .nil)) .nil))).2 n
        = lookupReg [("n", mkObj (.cons "a" (mkObj (.cons "x" (.num 0) .nil)) .nil))] n)
    ∧ (lookupReg [("n", mkObj (.cons "a" (mkObj (.cons "x" (.num 0) .nil)) .nil))] "n" = none →
        (getConfigCall [("n", mkObj (.cons "a" (mkObj (.cons "x" (.num 0) .nil)) .nil))]
          "n" (mkObj (.cons "a" (mkObj (.cons "x" (.num 1) .nil)) .nil))).2
          = [("n", mkObj (.cons "a" (mkObj (.cons "x" (.num 0) .nil)) .nil))])
    ∧ (∀ v, lookupReg [("n", mkObj (.cons "a" (mkObj (.cons "x" (.num 0) .nil)) .nil))] "n" = some v →
        v.isObject = false →
        lookupReg (getConfigCall [("n", mkObj (.cons "a" (mkObj (.cons "x" (.num 0) .nil)) .nil))]
          "n" (mkObj (.cons "a" (mkObj (.cons "x" (.num 1) .nil)) .nil))).2 "n" = some v)
    ∧ (∀ b fs,
        lookupReg [("n", mkObj (.cons "a" (mkObj (.cons "x" (.num 0) .nil)) .nil))] "n"
          = some (.obj b fs) →
        ∃ fs2, lookupReg (getConfigCall [("n", mkObj (.cons "a" (mkObj (.cons "x" (.num 0) .nil)) .nil))]
            "n" (mkObj (.cons "a" (mkObj (.cons "x" (.num 1) .nil)) .nil))).2 "n"
            = some (.obj b fs2)
          ∧ fs2.keys = fs.keys
          ∧ (∀ k tv, fs.getKey k = some tv →
              ((mkObj (.cons "a" (mkObj (.cons "x" (.num 1) .nil)) .nil)).getProp k = none ∨
                tv.isObject = false ∨
                (∀ sv, (mkObj (.cons "a" (mkObj (.cons "x" (.num 1) .nil)) .nil)).getProp k = some sv →
                  sv.isObject = false)) →
              fs2.getKey k = some tv))) :=
  claim3_amended_frame [("n", mkObj (.cons "a" (mkObj (.cons "x" (.num 0) .nil)) .nil))]
    "n" (mkObj (.cons "a" (mkObj (.cons "x" (.num 1) .nil)) .nil))

/-- Claim C10: the provider's `config(name, config)` with an `undefined`
config argument leaves the registry unchanged and acts as a pure getter;
a defined config argument stores the value under the name, leaving every
other name's binding unchanged, and returns it. -/
theorem claim10_provider_config (regs : Registry) (name : String)
    (cfg : JsVal) (h : cfg ≠ JsVal.undef) :
    (providerConfig regs name JsVal.undef).1 = regs
    ∧ (providerConfig regs name JsVal.undef).2
        = (lookupReg regs name).getD JsVal.undef
    ∧ (providerConfig regs name cfg).2 = cfg
    ∧ lookupReg (providerConfig regs name cfg).1 name = some cfg
    ∧ (∀ n, n ≠ name →
        lookupReg (providerConfig regs name cfg).1 n = lookupReg regs n) := by
  refine ⟨by simp [providerConfig], by simp [providerConfig], ?_, ?_, ?_⟩
  · simp [providerConfig, h, lookupReg_setReg_self]
  · simp [providerConfig, h, lookupReg_setReg_self]
  · intro n hn
    simp [providerConfig, h, lookupReg_setReg_ne name n cfg hn]

theorem claim10_witness :
    (JsVal.num 5 ≠ JsVal.undef)
    ∧ ((providerConfig [("a", mkObj .nil)] "b" JsVal.undef).1 = [("a", mkObj .nil)]
      ∧ (providerConfig [("a", mkObj .nil)] "b" JsVal.undef).2
          = (lookupReg [("a", mkObj .nil)] "b").getD JsVal.undef
      ∧ (providerConfig [("a", mkObj .nil)] "b" (JsVal.num 5)).2 = JsVal.num 5
      ∧ lookupReg (providerConfig [("a", mkObj .nil)] "b" (JsVal.num 5)).1 "b"
          = some (JsVal.num 5)
      ∧ (∀ n, n ≠ "b" →
          lookupReg (providerConfig [("a", mkObj .nil)] "b" (JsVal.num 5)).1 n
            = lookupReg [("a", mkObj .nil)] n)) :=
  ⟨by decide, claim10_provider_config [("a", mkObj .nil)] "b" (JsVal.num 5) (by decide)⟩

/-- Claim C6: for the endpoint "widget" with no parent, base url "/widgets"
and a current label that is empty (route id not "new"), the builder yields
exactly the root collection entry titled "Widgets" linking to "#/widgets"
followed by the terminal entry with empty title and no url, and an empty ui
stack. -/
theorem claim6_root_breadcrumbs :
    buildBreadcrumbs (.root "widget") [] "/widgets" none
      = .ok ([⟨"Widgets", some "#/widgets"⟩, ⟨"", none⟩], []) := by
  rfl

/-- Counterexample to claim C1: for endpoint "widget" with parent "gadget",
one parent value named "Acme", base url "/gadgets/42/widgets" and an empty
current label, the breadcrumbs are not the claimed four-entry list: the
controller emits no entry for the current endpoint's own collection when a
parent exists. -/
theorem claim1_counterexample :
    ¬ (buildBreadcrumbs (.child "widget" (.root "gadget")) [⟨"Acme"⟩]
        "/gadgets/42/widgets" none
      = .ok ([⟨"Gadgets", some "#/gadgets"⟩,
              ⟨"Acme", some "#/gadgets/42?tab=widgets"⟩,
              ⟨"Widgets", some "#/gadgets/42/widgets"⟩,
              ⟨"", none⟩],
             [⟨"Acme", some "#/gadgets/42?tab=widgets"⟩])) := by
  decide

/-- Claim C1 as amended: for endpoint "widget" with parent "gadget", one
parent value named "Acme", base url "/gadgets/42/widgets" and an empty
current label, the builder returns the three-entry breadcrumb list
"Gadgets" linking to "#/gadgets", "Acme" linking to
"#/gadgets/42?tab=widgets", and the terminal empty-titled entry (no entry
for the current collection), with ui stack containing exactly the "Acme"
entry.  The path arithmetic does strip two segments for the ancestor
level. -/
theorem claim1_amended_child_breadcrumbs :
    buildBreadcrumbs (.child "widget" (.root "gadget")) [⟨"Acme"⟩]
        "/gadgets/42/widgets" none
      = .ok ([⟨"Gadgets", some "#/gadgets"⟩,
              ⟨"Acme", some "#/gadgets/42?tab=widgets"⟩,
              ⟨"", none⟩],
             [⟨"Acme", some "#/gadgets/42?tab=widgets"⟩]) := by
  rfl

theorem crumbLoop_error_of_short : ∀ (ep : Endpoint) (parents : List ParentObj)
    (count : Nat) (url : String),
    0 < ep.chainLevels → parents.length < count + ep.chainLevels →
    ∃ e, crumbLoop ep parents count url = .error e
  | .root _, _, _, _, hpos, _ => by
      simp [Endpoint.chainLevels] at hpos
  | .child cname pe, parents, count, url, _, hlen => by
      cases hg : parents.get? count with
      | none =>
          have hg' : parents[count]? = none := by simpa using hg
          exact ⟨"TypeError: cannot read property name of undefined",
            by simp [crumbLoop, hg']⟩
      | some p =>
          have hg' : parents[count]? = some p := by simpa using hg
          obtain ⟨hlt, _⟩ := List.get?_eq_some.mp hg
          simp only [Endpoint.chainLevels] at hlen
          have hpos' : 0 < pe.chainLevels := by omega
          have hlen' : parents.length < (count + 1) + pe.chainLevels := by omega
          obtain ⟨e, he⟩ := crumbLoop_error_of_short pe parents (count + 1)
            (splitShiftAndJoin (splitShiftAndJoin url)) hpos' hlen'
          exact ⟨e, by simp [crumbLoop, hg', he]⟩

/-- Claim C9: whenever the resolved parent values list has fewer entries
than the number of levels in the endpoint's parent chain, the breadcrumb
construction fails with a thrown error (reading `parents[count].name` off
the end of the list) instead of returning breadcrumb and ui-stack
sequences. -/
theorem claim9_missing_parent_error (endpoint : Endpoint)
    (parents : List ParentObj) (baseUrl : String) (routeId : Option String)
    (hshort : parents.length < endpoint.chainLevels) :
    ∃ e, buildBreadcrumbs endpoint parents baseUrl routeId = .error e := by
  cases endpoint with
  | root nm => simp [Endpoint.chainLevels] at hshort
  | child cname pe =>
      have hpos : 0 < (Endpoint.child cname pe).chainLevels := by
        simp [Endpoint.chainLevels]
      obtain ⟨e, he⟩ := crumbLoop_error_of_short (.child cname pe) parents 0
        baseUrl hpos (by simpa using hshort)
      exact ⟨e, by simp [buildBreadcrumbs, he]⟩

theorem claim9_witness :
    ([] : List ParentObj).length
        < (Endpoint.child "widget" (.root "gadget")).chainLevels
    ∧ ∃ e, buildBreadcrumbs (.child "widget" (.root "gadget")) []
        "/gadgets/42/widgets" none = .error e :=
  ⟨by decide,
   claim9_missing_parent_error (.child "widget" (.root "gadget")) []
     "/gadgets/42/widgets" none (by decide)⟩

theorem lookupGroup_pushMsg_self : ∀ (m : List (String × List String))
    (f msg : String),
    lookupGroup (pushMsg m f msg) f = some ((lookupGroup m f).getD [] ++ [msg])
  | [], f, msg => by simp [pushMsg, lookupGroup]
  | (k, v) :: rest, f, msg => by
      by_cases h : k = f
      · simp [pushMsg, h, lookupGroup]
      · simp [pushMsg, h, lookupGroup, lookupGroup_pushMsg_self rest f msg]

theorem lookupGroup_pushMsg_ne : ∀ (m : List (String × List String))
    {f f' msg : String}, f' ≠ f →
    lookupGroup (pushMsg m f msg) f' = lookupGroup m f'
  | [], f, f', msg, h => by
      simp [pushMsg, lookupGroup, Ne.symm h]
  | (k, v) :: rest, f, f', msg, h => by
      by_cases h0 : k = f
      · simp [pushMsg, h0, lookupGroup, Ne.symm h]
      · by_cases h1 : k = f'
        · simp [pushMsg, h0, lookupGroup, h1, h]
        · simp [pushMsg, h0, lookupGroup, h1, lookupGroup_pushMsg_ne rest h]

theorem msgsOf_cons (e : FieldError) (rest : List FieldError) (f : String) :
    msgsOf (e :: rest) f
      = if e.field = f then e.message :: msgsOf rest f else msgsOf rest f := by
  by_cases h : e.field = f <;> simp [msgsOf, h]

theorem lookupGroup_foldl_pushMsg : ∀ (l : List FieldError)
    (acc : List (String × List String)) (f : String),
    lookupGroup (l.foldl (fun m e => pushMsg m e.field e.message) acc) f
      = match lookupGroup acc f with
        | some ms => some (ms ++ msgsOf l f)
        | none => if msgsOf l f = [] then none else some (msgsOf l f)
  | [], acc, f => by
      cases h : lookupGroup acc f <;> simp [msgsOf, h]
  | e :: rest, acc, f => by
      show lookupGroup
          (rest.foldl (fun m e => pushMsg m e.field e.message)
            (pushMsg acc e.field e.message)) f = _
      rw [lookupGroup_foldl_pushMsg rest (pushMsg acc e.field e.message) f]
      by_cases hf : e.field = f
      · rw [hf, lookupGroup_pushMsg_self acc f e.message, msgsOf_cons]
        rw [if_pos hf]
        cases h : lookupGroup acc f <;> simp [h]
      · rw [lookupGroup_pushMsg_ne acc (fun hh => hf hh.symm), msgsOf_cons,
          if_neg hf]

theorem lookupGroup_groupFieldErrors (l : List FieldError) (f : String) :
    lookupGroup (groupFieldErrors l) f
      = if msgsOf l f = [] then none else some (msgsOf l f) := by
  have h := lookupGroup_foldl_pushMsg l [] f
  simpa [groupFieldErrors, lookupGroup] using h

/-- Claim C5: a save rejection carrying a non-empty field-error sequence
sets the scope's field-error mapping to the errors grouped by field — each
present field maps to exactly its messages in order of appearance — and
leaves the edit state untouched; a rejection without field errors sets the
mapping to undefined (none) and performs no grouping, also leaving the edit
state untouched. -/
theorem claim5_field_errors {α : Type} (scope : DetailScope α)
    (l : List FieldError) (hl : l ≠ []) :
    ((handleSaveError (some l) scope).fieldErrors = some (groupFieldErrors l)
      ∧ (handleSaveError (some l) scope).editDetail = scope.editDetail
      ∧ groupFieldErrors l ≠ []
      ∧ (∀ f, lookupGroup (groupFieldErrors l) f
          = if msgsOf l f = [] then none else some (msgsOf l f)))
    ∧ ((handleSaveError none scope).fieldErrors = none
      ∧ (handleSaveError none scope).editDetail = scope.editDetail) := by
  refine ⟨⟨rfl, rfl, ?_, fun f => lookupGroup_groupFieldErrors l f⟩, rfl, rfl⟩
  obtain ⟨e, rest, rfl⟩ := List.exists_cons_of_ne_nil hl
  intro hempty
  have hne : msgsOf (e :: rest) e.field ≠ [] := by simp [msgsOf_cons]
  have h2 := lookupGroup_groupFieldErrors (e :: rest) e.field
  rw [if_neg hne, hempty] at h2
  simp [lookupGroup] at h2

theorem claim5_witness :
    (([⟨"f", "m1"⟩, ⟨"f", "m2"⟩, ⟨"g", "m3"⟩] : List FieldError) ≠ [])
    ∧ (((handleSaveError (some [⟨"f", "m1"⟩, ⟨"f", "m2"⟩, ⟨"g", "m3"⟩])
          (⟨some 7, none⟩ : DetailScope Nat)).fieldErrors
          = some (groupFieldErrors [⟨"f", "m1"⟩, ⟨"f", "m2"⟩, ⟨"g", "m3"⟩])
        ∧ (handleSaveError (some [⟨"f", "m1"⟩, ⟨"f", "m2"⟩, ⟨"g", "m3"⟩])
            (⟨some 7, none⟩ : DetailScope Nat)).editDetail
          = (⟨some 7, none⟩ : DetailScope Nat).editDetail
        ∧ groupFieldErrors [⟨"f", "m1"⟩, ⟨"f", "m2"⟩, ⟨"g", "m3"⟩] ≠ []
        ∧ (∀ f, lookupGroup (groupFieldErrors [⟨"f", "m1"⟩, ⟨"f", "m2"⟩, ⟨"g", "m3"⟩]) f
            = if msgsOf [⟨"f", "m1"⟩, ⟨"f", "m2"⟩, ⟨"g", "m3"⟩] f = [] then none
              else some (msgsOf [⟨"f", "m1"⟩, ⟨"f", "m2"⟩, ⟨"g", "m3"⟩] f)))
      ∧ ((handleSaveError none (⟨some 7, none⟩ : DetailScope Nat)).fieldErrors = none
        ∧ (handleSaveError none (⟨some 7, none⟩ : DetailScope Nat)).editDetail
          = (⟨some 7, none⟩ : DetailScope Nat).editDetail)) :=
  ⟨by decide,
   claim5_field_errors (⟨some 7, none⟩ : DetailScope Nat)
     [⟨"f", "m1"⟩, ⟨"f", "m2"⟩, ⟨"g", "m3"⟩] (by decide)⟩

end CatAngular
